import Mathlib

/-
Verification development for pmi_cluster.py (tan-clustering).

The Python module builds hierarchical word clusters by greedily merging the
pair of clusters with the highest document-level PMI score.  The definitions
below are a shallow embedding of the module: Python dicts become insertion-
ordered association lists, the str-or-int cluster keys become a tagged sum,
and the mutating methods of DocumentLevelClusters become pure state
transformers.  Theorems about the natural-language specification follow the
definitions.
-/

set_option maxHeartbeats 1000000

/-- Cluster identifier.  pmi_cluster.py uses either an original vocabulary
word (a str) or the monotonically increasing integer cluster counter (an int)
as a dict key; the two namespaces are disjoint, modelled as a tagged sum. -/
inductive CId : Type
| word (w : String)
| merged (n : Nat)
deriving DecidableEq

/-- Model of a Python dict: an association list of entries in insertion
order.  Python dicts never hold a duplicated key; dicts produced by the
operations below preserve that property, and theorems that need it take it
as an explicit Nodupkeys hypothesis. -/
abbrev Dict (kk vv : Type) : Type := List (kk × vv)

namespace Dict

/-- Dict read (d[k] when present): first entry with the given key. -/
def lookup {kk vv : Type} [DecidableEq kk] : Dict kk vv → kk → Option vv
| [], _ => none
| e :: m, k => if e.1 = k then some e.2 else lookup m k

/-- Dict read with a default, as a defaultdict read does. -/
def getD {kk vv : Type} [DecidableEq kk] (m : Dict kk vv) (k : kk) (d : vv) : vv :=
  (lookup m k).getD d

/-- Python membership test (k in d). -/
def hasKey {kk vv : Type} [DecidableEq kk] (m : Dict kk vv) (k : kk) : Bool :=
  (lookup m k).isSome

/-- Dict write (d[k] = v): updates the value in place when the key exists
(keeping its insertion position), otherwise appends a new entry, exactly as
a Python dict behaves. -/
def insert {kk vv : Type} [DecidableEq kk] (m : Dict kk vv) (k : kk) (v : vv) : Dict kk vv :=
  if hasKey m k then m.map (fun e => if e.1 = k then (k, v) else e) else m ++ [(k, v)]

/-- Dict deletion (del d[k]). -/
def erase {kk vv : Type} [DecidableEq kk] (m : Dict kk vv) (k : kk) : Dict kk vv :=
  m.filter (fun e => decide (e.1 ≠ k))

/-- list(d.keys()) in insertion order. -/
def keys {kk vv : Type} (m : Dict kk vv) : List kk :=
  m.map Prod.fst

/-- The keys are pairwise distinct, which holds of every real Python dict. -/
def Nodupkeys {kk vv : Type} (m : Dict kk vv) : Prop :=
  (keys m).Nodup

instance {kk vv : Type} [DecidableEq kk] (m : Dict kk vv) : Decidable (Nodupkeys m) := by
  unfold Nodupkeys; infer_instance

theorem lookup_nil {kk vv : Type} [DecidableEq kk] (k : kk) :
    lookup ([] : Dict kk vv) k = none := rfl

theorem lookup_cons {kk vv : Type} [DecidableEq kk] (e : kk × vv) (m : Dict kk vv) (k : kk) :
    lookup (e :: m) k = if e.1 = k then some e.2 else lookup m k := rfl

theorem lookup_mem {kk vv : Type} [DecidableEq kk] {m : Dict kk vv} {k : kk} {v : vv}
    (h : lookup m k = some v) : (k, v) ∈ m := by
  induction m with
  | nil => simp [lookup] at h
  | cons e m ih =>
    rw [lookup_cons] at h
    by_cases he : e.1 = k
    · rw [if_pos he] at h
      obtain ⟨a, b⟩ := e
      subst he
      cases h
      exact List.mem_cons_self _ _
    · rw [if_neg he] at h
      exact List.mem_cons_of_mem _ (ih h)

theorem lookup_eq_none_of_not_mem_keys {kk vv : Type} [DecidableEq kk]
    {m : Dict kk vv} {k : kk} (h : k ∉ keys m) : lookup m k = none := by
  induction m with
  | nil => rfl
  | cons e m ih =>
    rw [lookup_cons]
    simp only [keys, List.map_cons, List.mem_cons] at h
    push_neg at h
    rw [if_neg (fun hk => h.1 hk.symm), ih h.2]

theorem mem_keys_of_lookup_isSome {kk vv : Type} [DecidableEq kk]
    {m : Dict kk vv} {k : kk} (h : (lookup m k).isSome = true) : k ∈ keys m := by
  by_contra hmem
  rw [lookup_eq_none_of_not_mem_keys hmem] at h
  simp at h

theorem hasKey_true_iff {kk vv : Type} [DecidableEq kk] (m : Dict kk vv) (k : kk) :
    hasKey m k = true ↔ k ∈ keys m := by
  constructor
  · exact fun h => mem_keys_of_lookup_isSome h
  · intro h
    induction m with
    | nil => simp [keys] at h
    | cons e m ih =>
      simp only [keys, List.map_cons, List.mem_cons] at h
      unfold hasKey
      rw [lookup_cons]
      by_cases he : e.1 = k
      · rw [if_pos he]; rfl
      · rw [if_neg he]
        exact ih (h.resolve_left (fun hk => he hk.symm))

theorem lookup_eq_none_of_hasKey_false {kk vv : Type} [DecidableEq kk]
    {m : Dict kk vv} {k : kk} (h : hasKey m k = false) : lookup m k = none := by
  unfold hasKey at h
  cases hl : lookup m k with
  | none => rfl
  | some v => rw [hl] at h; simp at h

theorem lookup_append_of_none {kk vv : Type} [DecidableEq kk]
    {m : Dict kk vv} (l : Dict kk vv) {k : kk} (h : lookup m k = none) :
    lookup (m ++ l) k = lookup l k := by
  induction m with
  | nil => rfl
  | cons e m ih =>
    rw [lookup_cons] at h
    by_cases he : e.1 = k
    · rw [if_pos he] at h; cases h
    · rw [if_neg he] at h
      rw [List.cons_append, lookup_cons, if_neg he]
      exact ih h

theorem lookup_append_single_ne {kk vv : Type} [DecidableEq kk]
    (m : Dict kk vv) (k : kk) (v : vv) {q : kk} (h : q ≠ k) :
    lookup (m ++ [(k, v)]) q = lookup m q := by
  induction m with
  | nil =>
    rw [List.nil_append, lookup_cons, if_neg (fun hk : (k, v).1 = q => h hk.symm)]
  | cons e m ih =>
    rw [List.cons_append, lookup_cons, lookup_cons]
    by_cases he : e.1 = q
    · rw [if_pos he, if_pos he]
    · rw [if_neg he, if_neg he, ih]

theorem lookup_map_update_ne {kk vv : Type} [DecidableEq kk]
    (m : Dict kk vv) (k : kk) (v : vv) {q : kk} (h : q ≠ k) :
    lookup (m.map (fun e => if e.1 = k then (k, v) else e)) q = lookup m q := by
  induction m with
  | nil => rfl
  | cons e m ih =>
    rw [List.map_cons, lookup_cons, lookup_cons]
    by_cases he : e.1 = k
    · rw [if_pos he]
      have hq : ¬ ((k, v).1 = q) := fun hk => h hk.symm
      rw [if_neg hq, if_neg (by rw [he]; exact fun hk => h hk.symm), ih]
    · rw [if_neg he]
      by_cases hq : e.1 = q
      · rw [if_pos hq, if_pos hq]
      · rw [if_neg hq, if_neg hq, ih]

theorem lookup_map_update_self {kk vv : Type} [DecidableEq kk]
    {m : Dict kk vv} {k : kk} (v : vv) (hmem : k ∈ keys m) :
    lookup (m.map (fun e => if e.1 = k then (k, v) else e)) k = some v := by
  induction m with
  | nil => simp [keys] at hmem
  | cons e m ih =>
    rw [List.map_cons]
    by_cases he : e.1 = k
    · rw [if_pos he, lookup_cons]
      simp
    · rw [if_neg he, lookup_cons, if_neg he]
      simp only [keys, List.map_cons, List.mem_cons] at hmem
      exact ih (hmem.resolve_left (fun hk => he hk.symm))

theorem lookup_insert_self {kk vv : Type} [DecidableEq kk]
    (m : Dict kk vv) (k : kk) (v : vv) : lookup (insert m k v) k = some v := by
  unfold insert
  by_cases hc : hasKey m k
  · rw [if_pos hc]
    exact lookup_map_update_self v ((hasKey_true_iff m k).1 hc)
  · rw [if_neg hc]
    have hn : lookup m k = none :=
      lookup_eq_none_of_hasKey_false (Bool.eq_false_iff.2 hc)
    rw [lookup_append_of_none _ hn, lookup_cons]
    simp

theorem lookup_insert_ne {kk vv : Type} [DecidableEq kk]
    (m : Dict kk vv) (k : kk) (v : vv) {q : kk} (h : q ≠ k) :
    lookup (insert m k v) q = lookup m q := by
  unfold insert
  by_cases hc : hasKey m k
  · rw [if_pos hc, lookup_map_update_ne m k v h]
  · rw [if_neg hc, lookup_append_single_ne m k v h]

theorem lookup_erase_ne {kk vv : Type} [DecidableEq kk]
    (m : Dict kk vv) (k : kk) {q : kk} (h : q ≠ k) :
    lookup (erase m k) q = lookup m q := by
  induction m with
  | nil => rfl
  | cons e m ih =>
    unfold erase
    rw [List.filter_cons]
    by_cases he : e.1 = k
    · rw [if_neg (by simp [he])]
      rw [lookup_cons, if_neg (by rw [he]; exact fun hk => h hk.symm)]
      exact ih
    · rw [if_pos (by simp [he])]
      rw [lookup_cons, lookup_cons]
      by_cases hq : e.1 = q
      · rw [if_pos hq, if_pos hq]
      · rw [if_neg hq, if_neg hq]
        exact ih

theorem hasKey_insert_iff {kk vv : Type} [DecidableEq kk]
    (m : Dict kk vv) (k : kk) (v : vv) (q : kk) :
    hasKey (insert m k v) q = true ↔ q = k ∨ hasKey m q = true := by
  by_cases hq : q = k
  · subst hq
    unfold hasKey
    rw [lookup_insert_self]
    simp
  · unfold hasKey
    rw [lookup_insert_ne m k v hq]
    simp [hq]

theorem hasKey_cons_iff {kk vv : Type} [DecidableEq kk]
    (e : kk × vv) (m : Dict kk vv) (q : kk) :
    hasKey (e :: m) q = true ↔ e.1 = q ∨ hasKey m q = true := by
  unfold hasKey
  rw [lookup_cons]
  by_cases he : e.1 = q
  · simp [he]
  · simp [he]

theorem getD_eq_of_lookup {kk vv : Type} [DecidableEq kk]
    {m : Dict kk vv} {k : kk} {v : vv} (d : vv) (h : lookup m k = some v) :
    getD m k d = v := by
  unfold getD; rw [h]; rfl

theorem getD_eq_default_of_none {kk vv : Type} [DecidableEq kk]
    {m : Dict kk vv} {k : kk} (d : vv) (h : lookup m k = none) :
    getD m k d = d := by
  unfold getD; rw [h]; rfl

end Dict

/-- Python-level failures that the embedded functions can surface. -/
inductive PyError : Type
| nameError
| indexError
deriving DecidableEq

/-- State built by DocumentLevelClusters.create_index: the cluster-id to
document-count index and the frequency table (both defaultdicts). -/
structure IndexState where
  index : Dict CId (Dict Nat Nat)
  wordCounts : Dict CId Nat
deriving DecidableEq

/-- Body of the inner loop of create_index (pmi_cluster.py lines 159-163):
record one occurrence of token t in document docId. -/
def indexToken (st : IndexState) (docId : Nat) (t : String) : IndexState :=
  let m := Dict.getD st.index (CId.word t) []
  { index := Dict.insert st.index (CId.word t) (Dict.insert m docId (Dict.getD m docId 0 + 1)),
    wordCounts := Dict.insert st.wordCounts (CId.word t) (Dict.getD st.wordCounts (CId.word t) 0 + 1) }

/-- Index every token of one document. -/
def indexDoc (st : IndexState) (docId : Nat) (doc : List String) : IndexState :=
  doc.foldl (fun s t => indexToken s docId t) st

/-- Enumerated loop of create_index over the document stream. -/
def indexDocs : List (List String) → Nat → IndexState → IndexState
| [], _, st => st
| doc :: rest, docId, st => indexDocs rest (docId + 1) (indexDoc st docId doc)

/-- DocumentLevelClusters.create_index (lines 157-167).  The final statement
num_docs = doc_id + 1 reads the loop variable, which was never bound when the
generator yielded no document, so an empty corpus raises an
UnboundLocalError in Python; that failure is modelled as nameError. -/
def createIndex (docs : List (List String)) : Except PyError (IndexState × Nat) :=
  match docs with
  | [] => Except.error PyError.nameError
  | _ => Except.ok (indexDocs docs 0 ⟨[], []⟩, (docs.length - 1) + 1)

/-- Word keys of the frequency table (at create_vocab time every key of
word_counts is an original word, a str). -/
def wordKeys (wc : Dict CId Nat) : List String :=
  (Dict.keys wc).filterMap (fun c => match c with | CId.word w => some w | CId.merged _ => none)

/-- One step of a stable descending insertion sort by frequency; equal
frequencies keep their earlier relative order, matching the stable Python
sorted with reverse=True used at lines 170-171. -/
def insDesc (wc : Dict CId Nat) (w : String) : List String → List String
| [] => [w]
| y :: ys => if Dict.getD wc (CId.word w) 0 > Dict.getD wc (CId.word y) 0
             then w :: y :: ys else y :: insDesc wc w ys

/-- The vocabulary sorted by decreasing frequency, stable on ties. -/
def sortWordsDesc (wc : Dict CId Nat) (ws : List String) : List String :=
  ws.foldl (fun acc w => insDesc wc w acc) []

/-- Membership test key in words_set at line 186 (an int key never equals a
str element). -/
def keyRetained (retained : List String) : CId → Bool
| CId.word w => decide (w ∈ retained)
| CId.merged _ => false

/-- Pruning loop at lines 183-188: delete every index key that is not a
retained word, from the index and from the frequency table alike. -/
def pruneDict {vv : Type} (retained : List String) (ks : List CId) (d : Dict CId vv) : Dict CId vv :=
  ks.foldl (fun acc k => if keyRetained retained k then acc else Dict.erase acc k) d

/-- Result of create_vocab: the retained word list and the pruned maps. -/
structure VocabResult where
  words : List String
  index : Dict CId (Dict Nat Nat)
  wordCounts : Dict CId Nat
deriving DecidableEq

/-- DocumentLevelClusters.create_vocab (lines 169-188).  When a cap is given
and exceeded, the boundary frequency is read from words[max_vocab_size + 1];
when that position is out of range Python raises an IndexError, modelled as
indexError. -/
def createVocab (index : Dict CId (Dict Nat Nat)) (wc : Dict CId Nat)
    (maxVocabSize : Option Nat) : Except PyError VocabResult :=
  let words := sortWordsDesc wc (wordKeys wc)
  match maxVocabSize with
  | none => Except.ok ⟨words, index, wc⟩
  | some cap =>
    if words.length > cap then
      match words.get? (cap + 1) with
      | none => Except.error PyError.indexError
      | some boundary =>
        let tooRare0 := Dict.getD wc (CId.word boundary) 0
        let tooRare := if tooRare0 = Dict.getD wc (CId.word (words.headD "")) 0
                       then tooRare0 + 1 else tooRare0
        let retained := words.filter (fun w => Dict.getD wc (CId.word w) 0 > tooRare)
        Except.ok ⟨retained, pruneDict retained (Dict.keys index) index,
                   pruneDict retained (Dict.keys index) wc⟩
    else Except.ok ⟨words, index, wc⟩

/-- Stored pair score, kept symbolically: the float written at lines 199 and
204-208 is either -inf (paircount 0) or log(paircount) - log(freq c1) -
log(freq c2), determined by the three integer counts recorded here. -/
inductive SVal : Type
| neginf
| finiteScore (paircount f1 f2 : Nat)
deriving DecidableEq

/-- Real value of a stored score, with -inf as the bottom of EReal. -/
noncomputable def svalInterp : SVal → EReal
| SVal.neginf => ⊥
| SVal.finiteScore p f1 f2 =>
  ((Real.log p - Real.log f1 - Real.log f2 : Real) : EReal)

/-- Accumulation loop at lines 192-196: over the documents common to both
maps, sum the products of the two per-document counts. -/
def pairCount (m1 m2 : Dict Nat Nat) : Nat :=
  ((Dict.keys m1).filter (fun d => Dict.hasKey m2 d)).foldl
    (fun acc d => acc + Dict.getD m1 d 0 * Dict.getD m2 d 0) 0

/-- Loop body of make_pair_scores (lines 191-208) for one pair; the
defaultdict index yields an empty map for an id it does not hold. -/
def pairScoreVal (index : Dict CId (Dict Nat Nat)) (wc : Dict CId Nat)
    (c1 c2 : CId) : SVal :=
  let m1 := Dict.getD index c1 []
  let m2 := Dict.getD index c2 []
  if pairCount m1 m2 = 0 then SVal.neginf
  else SVal.finiteScore (pairCount m1 m2) (Dict.getD wc c1 0) (Dict.getD wc c2 0)

/-- DocumentLevelClusters.make_pair_scores (lines 190-208): store the score
of every listed pair into the nested current_batch_scores table. -/
def makePairScores (index : Dict CId (Dict Nat Nat)) (wc : Dict CId Nat)
    (pairs : List (CId × CId)) (tbl : Dict CId (Dict CId SVal)) : Dict CId (Dict CId SVal) :=
  pairs.foldl
    (fun t p =>
      Dict.insert t p.1 (Dict.insert (Dict.getD t p.1 []) p.2 (pairScoreVal index wc p.1 p.2)))
    tbl

/-- Scan of DocumentLevelClusters.find_best (lines 210-219) over the table
entries in iteration order.  The score type is abstract: find_best only
compares scores, so any linear order stands for the Python floats.  One
random bit is drawn (from the stream f, at position k) exactly when the
current score equals the incumbent best score, matching the short-circuit
randint call at line 216. -/
def findBestEntries {α : Type} [LinearOrder α] :
    List ((CId × CId) × α) → Option ((CId × CId) × α) → Nat → (Nat → Bool) →
    Option ((CId × CId) × α) × Nat
| [], best, k, _ => (best, k)
| e :: es, none, k, f => findBestEntries es (some e) k f
| e :: es, some b, k, f =>
  if b.2 < e.2 then findBestEntries es (some e) k f
  else if e.2 = b.2 then
    (if f k then findBestEntries es (some e) (k + 1) f
     else findBestEntries es (some b) (k + 1) f)
  else findBestEntries es (some b) k f

/-- Flatten the nested score table in the order of the two nested loops of
find_best. -/
def scoreEntries {α : Type} (tbl : Dict CId (Dict CId α)) : List ((CId × CId) × α) :=
  tbl.flatMap (fun row => row.2.map (fun e => ((row.1, e.1), e.2)))

/-- DocumentLevelClusters.find_best: the selected pair together with the
number of random bits consumed. -/
def findBest {α : Type} [LinearOrder α] (tbl : Dict CId (Dict CId α))
    (f : Nat → Bool) : Option (CId × CId) × Nat :=
  let r := findBestEntries (scoreEntries tbl) none 0 f
  (r.1.map (fun e => e.1), r.2)

/-- Full mutable state of a DocumentLevelClusters instance. -/
structure ClusterState where
  clusterParents : Dict CId CId
  clusterCounter : Nat
  index : Dict CId (Dict Nat Nat)
  words : List String
  wordCounts : Dict CId Nat
  clusterBits : Dict CId String
  currentBatch : List CId
  currentBatchScores : Dict CId (Dict CId SVal)
deriving DecidableEq

/-- Loop at lines 234-237: add the document counts of the second child map
into the accumulating map of the new cluster (a Python dict never repeats a
key, so the stored value of each entry is exactly index[c2][doc_id]). -/
def addCounts (m1 : Dict Nat Nat) : List (Nat × Nat) → Dict Nat Nat
| [] => m1
| e :: rest => addCounts (Dict.insert m1 e.1 (Dict.getD m1 e.1 0 + e.2)) rest

/-- Membership test c1 not in self.words at lines 246-249 (an int id never
occurs in the str list). -/
def inWords (ws : List String) : CId → Bool
| CId.word w => decide (w ∈ ws)
| CId.merged _ => false

/-- DocumentLevelClusters.merge (lines 221-249).  The Boolean r stands for
randint(0, 1) == 1 at line 226, so bit[c1] = str(r) and bit[c2] = str(1 - r). -/
def merge (s : ClusterState) (c1 c2 : CId) (r : Bool) : ClusterState :=
  let cNew := CId.merged s.clusterCounter
  let parents := Dict.insert (Dict.insert s.clusterParents c1 cNew) c2 cNew
  let bits := Dict.insert (Dict.insert s.clusterBits c1 (if r then "1" else "0"))
      c2 (if r then "0" else "1")
  let newMap := addCounts (Dict.getD s.index c1 []) (Dict.getD s.index c2 [])
  let index := Dict.erase (Dict.erase (Dict.insert s.index cNew newMap) c1) c2
  let wc0 := Dict.insert s.wordCounts cNew
      (Dict.getD s.wordCounts c1 0 + Dict.getD s.wordCounts c2 0)
  let wc1 := if inWords s.words c1 then wc0 else Dict.erase wc0 c1
  let wc2 := if inWords s.words c2 then wc1 else Dict.erase wc1 c2
  { s with clusterParents := parents, clusterBits := bits, index := index, wordCounts := wc2 }

/-- itertools.combinations(l, 2) in iteration order. -/
def combos2 {α : Type} : List α → List (α × α)
| [] => []
| x :: xs => xs.map (fun y => (x, y)) ++ combos2 xs

/-- itertools.product(l1, l2) in iteration order. -/
def prodPairs {α : Type} (l1 l2 : List α) : List (α × α) :=
  l1.flatMap (fun a => l2.map (fun b => (a, b)))

/-- Score-table purge of update_batch (lines 256-261): drop the row of c and
the column of c in every remaining row. -/
def purgeScores (tbl : Dict CId (Dict CId SVal)) (c : CId) : Dict CId (Dict CId SVal) :=
  let t := if Dict.hasKey tbl c then Dict.erase tbl c else tbl
  t.map (fun row => (row.1, Dict.erase row.2 c))

/-- DocumentLevelClusters.update_batch (lines 251-275), returning the new
state together with the remaining backlog (freq_words.pop(0) consumes the
head of the queue). -/
def updateBatch (s : ClusterState) (c1 c2 : CId) (queue : List String) :
    ClusterState × List String :=
  let batch := s.currentBatch.filter (fun x => decide (¬ (x = c1 ∨ x = c2)))
  let tbl := purgeScores (purgeScores s.currentBatchScores c1) c2
  let pair := match queue with
    | [] => ([CId.merged s.clusterCounter], ([] : List String))
    | w :: rest => ([CId.merged s.clusterCounter, CId.word w], rest)
  let tbl1 := makePairScores s.index s.wordCounts (prodPairs pair.1 batch) tbl
  let tbl2 := makePairScores s.index s.wordCounts (combos2 pair.1) tbl1
  ({ s with currentBatch := batch ++ pair.1, currentBatchScores := tbl2 }, pair.2)

/-- One iteration of the merge loop at lines 140-155 for a given selected
pair and random bit: merge, update the batch, advance the counter. -/
def mergeStep (sq : ClusterState × List String) (c1 c2 : CId) (r : Bool) :
    ClusterState × List String :=
  let s1 := merge sq.1 c1 c2 r
  let p := updateBatch s1 c1 c2 sq.2
  ({ p.1 with clusterCounter := p.1.clusterCounter + 1 }, p.2)

/-- Iterate mergeStep over a whole sequence of merge decisions. -/
def applyMerges (sq : ClusterState × List String) :
    List (CId × CId × Bool) → ClusterState × List String
| [] => sq
| op :: ops => applyMerges (mergeStep sq op.1 op.2.1 op.2.2) ops

/-- DocumentLevelClusters.__init__ up to the merge loop (lines 101-139):
index the corpus, select the vocabulary, seed the batch with the
batch_size + 1 most frequent words and score all its pairs. -/
def initialState (corpus : List (List String)) (maxVocabSize : Option Nat)
    (batchSize : Nat) : Except PyError (ClusterState × List String) :=
  match createIndex corpus with
  | Except.error e => Except.error e
  | Except.ok r =>
    match createVocab r.1.index r.1.wordCounts maxVocabSize with
    | Except.error e => Except.error e
    | Except.ok v =>
      let batch := (v.words.take (batchSize + 1)).map CId.word
      Except.ok
        ({ clusterParents := [], clusterCounter := 0, index := v.index,
           words := v.words, wordCounts := v.wordCounts, clusterBits := [],
           currentBatch := batch,
           currentBatchScores := makePairScores v.index v.wordCounts (combos2 batch) [] },
         v.words.drop (batchSize + 1))

/-- Rank used to show the parent walk terminates: every original word sits
below every merged id, and merged ids are ordered by creation index. -/
def rank : CId → Nat
| CId.word _ => 0
| CId.merged n => n + 1

/-- Fuel-indexed unfolding of the while loop of get_bitstring (lines
277-284): prepend the bit of the current cluster and move to its parent. -/
def getBitstringAux (parents : Dict CId CId) (bits : Dict CId String) :
    Nat → CId → String
| 0, _ => ""
| fuel + 1, c =>
  match Dict.lookup parents c with
  | none => ""
  | some p => getBitstringAux parents bits fuel p ++ Dict.getD bits c ""

/-- Upper bound for the rank of any parent recorded in the map. -/
def parentBound (parents : Dict CId CId) : Nat :=
  (parents.map (fun e => rank e.2)).foldl max 0

/-- DocumentLevelClusters.get_bitstring (lines 277-284), a pure query over
the parent and bit maps; the fuel parentBound + 1 suffices for the walk to
reach a root whenever parents are rank-increasing. -/
def getBitstring (parents : Dict CId CId) (bits : Dict CId String) (c : CId) : String :=
  getBitstringAux parents bits (parentBound parents + 1) c

/-- Fuel-indexed count of the merges on the path from c to its root. -/
def pathLenAux (parents : Dict CId CId) : Nat → CId → Nat
| 0, _ => 0
| fuel + 1, c =>
  match Dict.lookup parents c with
  | none => 0
  | some p => pathLenAux parents fuel p + 1

/-- Number of merges on the path from c to its root. -/
def pathLen (parents : Dict CId CId) (c : CId) : Nat :=
  pathLenAux parents (parentBound parents + 1) c

/-- DocumentLevelClusters.save_clusters (lines 286-290): one (word, code,
frequency) record per retained word, in vocabulary order. -/
def saveClusters (s : ClusterState) : List (String × String × Nat) :=
  s.words.map (fun w =>
    (w, getBitstring s.clusterParents s.clusterBits (CId.word w),
     Dict.getD s.wordCounts (CId.word w) 0))

/-- Number of occurrences of w in one document. -/
def occInDoc (w : String) : List String → Nat
| [] => 0
| t :: ts => (if t = w then 1 else 0) + occInDoc w ts

/-- Total number of occurrences of w across the corpus. -/
def occCount (corpus : List (List String)) (w : String) : Nat :=
  (corpus.map (occInDoc w)).sum

theorem insDesc_length (wc : Dict CId Nat) (w : String) (l : List String) :
    (insDesc wc w l).length = l.length + 1 := by
  induction l with
  | nil => rfl
  | cons y ys ih =>
    unfold insDesc
    split
    · rfl
    · simp only [List.length_cons, ih]

theorem sortWordsDescAux_length (wc : Dict CId Nat) (ws : List String) :
    ∀ acc : List String,
    (ws.foldl (fun a w => insDesc wc w a) acc).length = acc.length + ws.length := by
  induction ws with
  | nil => intro acc; rfl
  | cons w ws ih =>
    intro acc
    rw [List.foldl_cons, ih, insDesc_length]
    simp only [List.length_cons]
    omega

theorem sortWordsDesc_length (wc : Dict CId Nat) (ws : List String) :
    (sortWordsDesc wc ws).length = ws.length := by
  unfold sortWordsDesc
  rw [sortWordsDescAux_length]
  simp

/-- Claim C10: when the frequency table holds exactly max_vocab_size + 1
distinct words and a cap is supplied, create_vocab enters the cap branch
(len(words) > max_vocab_size is true) but then reads words[max_vocab_size + 1],
one position past the end of the sorted word list, so construction stops with
an uncaught IndexError and no vocabulary is ever selected. -/
theorem claim10_cap_indexerror (index : Dict CId (Dict Nat Nat)) (wc : Dict CId Nat)
    (cap : Nat) (hlen : (wordKeys wc).length = cap + 1) :
    createVocab index wc (some cap) = Except.error PyError.indexError := by
  have hL : (sortWordsDesc wc (wordKeys wc)).length = cap + 1 := by
    rw [sortWordsDesc_length, hlen]
  have hnone : (sortWordsDesc wc (wordKeys wc)).get? (cap + 1) = none := by
    apply List.get?_eq_none.2
    omega
  simp only [createVocab, hnone]
  rw [if_pos (show cap < (sortWordsDesc wc (wordKeys wc)).length by omega)]

def wc10 : Dict CId Nat := [(CId.word "a", 1), (CId.word "b", 1)]

/-- Witness for claim C10 at a concrete two-word frequency table and cap 1. -/
theorem claim10_witness :
    (wordKeys wc10).length = 1 + 1
    ∧ createVocab [] wc10 (some 1) = Except.error PyError.indexError :=
  ⟨by decide, claim10_cap_indexerror [] wc10 1 (by decide)⟩

/-- Claim C7 (evidence of the code bug): create_index on an empty corpus
does not complete; the trailing statement num_docs = doc_id + 1 reads the
never-bound loop variable, so Python raises an UnboundLocalError instead of
yielding an empty clustering, modelled by the nameError result. -/
theorem claim7_empty_corpus :
    createIndex ([] : List (List String)) = Except.error PyError.nameError := rfl

def corpus9 : List (List String) :=
  [["a", "b", "c"], ["a", "b", "c"], ["a", "b", "c"], ["a", "b"], ["a", "b"]]

/-- Claim C9: on a corpus with word frequencies a:5, b:5 and c:3 and
max_vocab_size = 1, create_vocab relaxes the cap at the frequency tie and
retains exactly the two words a and b (vocabulary size 2, not 1); the last
conjunct states the same for the frequency table alone, whatever the index. -/
theorem claim9_cap_tie (index : Dict CId (Dict Nat Nat)) :
    occCount corpus9 "a" = 5 ∧ occCount corpus9 "b" = 5 ∧ occCount corpus9 "c" = 3
    ∧ (createIndex corpus9).map (fun r =>
        (createVocab r.1.index r.1.wordCounts (some 1)).map (fun v => v.words))
      = Except.ok (Except.ok ["a", "b"])
    ∧ (createVocab index [(CId.word "a", 5), (CId.word "b", 5), (CId.word "c", 3)]
        (some 1)).map (fun v => v.words) = Except.ok ["a", "b"] := by
  refine ⟨rfl, rfl, rfl, rfl, rfl⟩

def tbl6 : Dict CId (Dict CId Int) :=
  [(CId.merged 1, [(CId.merged 2, 0), (CId.merged 3, 0)]),
   (CId.merged 4, [(CId.merged 5, 0)])]

def boolPairs4 : List (Bool × Bool) :=
  [(false, false), (false, true), (true, false), (true, true)]

/-- Number of the four equally likely two-bit random draws under which
find_best returns the given pair on the three-way tied table tbl6. -/
def tieCount (p : CId × CId) : Nat :=
  (boolPairs4.filter (fun b =>
    decide ((findBest tbl6 (fun n => if n = 0 then b.1 else b.2)).1 = some p))).length

/-- Claim C6 counterexample: on a score table whose three scored pairs all
carry the maximal score, find_best selects the three pairs 1, 1 and 2 times
over the 4 equally likely draws of the two random bits it consumes, so the
tied pairs are not chosen with equal probability. -/
theorem claim6_counterexample :
    tieCount (CId.merged 1, CId.merged 2) = 1
    ∧ tieCount (CId.merged 1, CId.merged 3) = 1
    ∧ tieCount (CId.merged 4, CId.merged 5) = 2
    ∧ ¬ tieCount (CId.merged 1, CId.merged 2) = tieCount (CId.merged 4, CId.merged 5) := by
  refine ⟨?_, ?_, ?_, ?_⟩ <;> decide

/-- Claim C6 (amended): on tied maximal scores find_best keeps the first
pair seen and, at each later pair tying the incumbent score, draws one fair
bit and replaces the incumbent exactly when the bit is set; the selected
pair is therefore the last tied pair whose bit was set, or else the first.
With two tied pairs the choice is uniform; with three the pairs are selected
with probabilities 1/4, 1/4 and 1/2 in iteration order. -/
theorem claim6_amended {α : Type} [LinearOrder α] (q1 q2 q3 : CId × CId) (s : α)
    (f : Nat → Bool) :
    (findBestEntries [(q1, s), (q2, s)] none 0 f).1
      = some ((if f 0 then q2 else q1), s)
    ∧ (findBestEntries [(q1, s), (q2, s), (q3, s)] none 0 f).1
      = some ((if f 1 then q3 else if f 0 then q2 else q1), s) := by
  constructor <;>
    cases hf0 : f 0 <;> cases hf1 : f 1 <;>
      simp [findBestEntries, hf0, hf1, lt_irrefl]

theorem filter_hasKey_nil {kk vv : Type} [DecidableEq kk] (l : List kk) :
    l.filter (fun d => Dict.hasKey ([] : Dict kk vv) d) = [] := by
  induction l with
  | nil => rfl
  | cons x xs ih => simp only [List.filter_cons, Dict.hasKey, Dict.lookup, Option.isSome_none, Bool.false_eq_true, if_false]; exact ih

theorem pairScoreVal_of_missing (index : Dict CId (Dict Nat Nat)) (wc : Dict CId Nat)
    (c1 c2 : CId) (h : Dict.hasKey index c2 = false) :
    pairScoreVal index wc c1 c2 = SVal.neginf := by
  have hm2 : Dict.getD index c2 ([] : Dict Nat Nat) = [] :=
    Dict.getD_eq_default_of_none _ (Dict.lookup_eq_none_of_hasKey_false h)
  simp only [pairScoreVal, hm2]
  have h0 : pairCount (Dict.getD index c1 []) [] = 0 := by
    unfold pairCount
    rw [filter_hasKey_nil]
    rfl
  rw [if_pos h0]

theorem makePairScores_single (index : Dict CId (Dict Nat Nat)) (wc : Dict CId Nat)
    (tbl : Dict CId (Dict CId SVal)) (c1 c2 : CId) :
    Dict.lookup (Dict.getD (makePairScores index wc [(c1, c2)] tbl) c1 []) c2
      = some (pairScoreVal index wc c1 c2) := by
  unfold makePairScores
  rw [List.foldl_cons, List.foldl_nil,
      Dict.getD_eq_of_lookup _ (Dict.lookup_insert_self _ _ _)]
  exact Dict.lookup_insert_self _ _ _

def idx8 : Dict CId (Dict Nat Nat) := [(CId.word "a", [(0, 1)])]

def wc8 : Dict CId Nat := [(CId.word "a", 1)]

/-- Claim C8 counterexample: the id b has no document-occurrence map in
idx8, yet make_pair_scores detects nothing and silently stores the -inf
score for the pair (a, b): the defaultdict index hands back an empty map for
the missing id instead of failing loudly. -/
theorem claim8_counterexample :
    Dict.hasKey idx8 (CId.word "b") = false
    ∧ Dict.lookup (Dict.getD (makePairScores idx8 wc8 [(CId.word "a", CId.word "b")] [])
        (CId.word "a") []) (CId.word "b") = some SVal.neginf :=
  ⟨rfl, rfl⟩

/-- Claim C8 (amended): a score-table pair whose second id has no
document-occurrence map is not detected as an invariant violation:
make_pair_scores treats the missing id as having an empty map (the
defaultdict index auto-creates one), computes co-occurrence 0 and silently
stores negative infinity for the pair; no error is raised. -/
theorem claim8_missing_silent (index : Dict CId (Dict Nat Nat)) (wc : Dict CId Nat)
    (tbl : Dict CId (Dict CId SVal)) (c1 c2 : CId)
    (h : Dict.hasKey index c2 = false) :
    Dict.lookup (Dict.getD (makePairScores index wc [(c1, c2)] tbl) c1 []) c2
      = some SVal.neginf := by
  rw [makePairScores_single, pairScoreVal_of_missing index wc c1 c2 h]

/-- Witness for the amended claim C8 at a concrete table and a merged id
that is absent from the index. -/
theorem claim8_witness :
    Dict.hasKey idx8 (CId.merged 7) = false
    ∧ Dict.lookup (Dict.getD (makePairScores idx8 wc8 [(CId.word "a", CId.merged 7)] [])
        (CId.word "a") []) (CId.merged 7) = some SVal.neginf :=
  ⟨by decide, claim8_missing_silent idx8 wc8 [] (CId.word "a") (CId.merged 7) (by decide)⟩

theorem filter_not_or_left {α : Type} [DecidableEq α] {l : List α} {c1 : α} (c2 : α)
    (h : c1 ∉ l) :
    l.filter (fun x => decide (¬ (x = c1 ∨ x = c2)))
      = l.filter (fun x => decide (¬ x = c2)) := by
  induction l with
  | nil => rfl
  | cons x xs ih =>
    simp only [List.mem_cons] at h
    push_neg at h
    have hx1 : ¬ x = c1 := fun hh => h.1 hh.symm
    rw [List.filter_cons, List.filter_cons, ih h.2]
    by_cases hx2 : x = c2
    · rw [if_neg (by simp [hx2]), if_neg (by simp [hx2])]
    · rw [if_pos (by simp [hx1, hx2]), if_pos (by simp [hx2])]

theorem filter_not_or_right {α : Type} [DecidableEq α] {l : List α} (c1 : α) {c2 : α}
    (h : c2 ∉ l) :
    l.filter (fun x => decide (¬ (x = c1 ∨ x = c2)))
      = l.filter (fun x => decide (¬ x = c1)) := by
  induction l with
  | nil => rfl
  | cons x xs ih =>
    simp only [List.mem_cons] at h
    push_neg at h
    have hx2 : ¬ x = c2 := fun hh => h.1 hh.symm
    rw [List.filter_cons, List.filter_cons, ih h.2]
    by_cases hx1 : x = c1
    · rw [if_neg (by simp [hx1]), if_neg (by simp [hx1])]
    · rw [if_pos (by simp [hx1, hx2]), if_pos (by simp [hx1])]

theorem filter_ne_length {α : Type} [DecidableEq α] {l : List α} {c : α}
    (hnd : l.Nodup) (hc : c ∈ l) :
    (l.filter (fun x => decide (¬ x = c))).length + 1 = l.length := by
  induction l with
  | nil => cases hc
  | cons x xs ih =>
    rw [List.nodup_cons] at hnd
    by_cases hx : x = c
    · subst hx
      rw [List.filter_cons, if_neg (by simp)]
      have hself : xs.filter (fun y => decide (¬ y = x)) = xs := by
        apply List.filter_eq_self.2
        intro a ha
        simp only [decide_eq_true_eq]
        exact fun haa => hnd.1 (haa ▸ ha)
      rw [hself, List.length_cons]
    · have hc2 : c ∈ xs := (List.mem_cons.1 hc).resolve_left (fun hcc => hx hcc.symm)
      rw [List.filter_cons, if_pos (by simpa using hx)]
      have hih := ih hnd.2 hc2
      simp only [List.length_cons]
      omega

theorem filter_remove_two_length {α : Type} [DecidableEq α] {l : List α} {c1 c2 : α}
    (hnd : l.Nodup) (h1 : c1 ∈ l) (h2 : c2 ∈ l) (h12 : c1 ≠ c2) :
    (l.filter (fun x => decide (¬ (x = c1 ∨ x = c2)))).length + 2 = l.length := by
  induction l with
  | nil => cases h1
  | cons x xs ih =>
    rw [List.nodup_cons] at hnd
    by_cases hx1 : x = c1
    · subst hx1
      have h2x : c2 ∈ xs := (List.mem_cons.1 h2).resolve_left (fun hcc => h12 hcc.symm)
      rw [List.filter_cons, if_neg (by simp), filter_not_or_left c2 hnd.1]
      have hfl := filter_ne_length hnd.2 h2x
      simp only [List.length_cons]
      omega
    · by_cases hx2 : x = c2
      · subst hx2
        have h1x : c1 ∈ xs := (List.mem_cons.1 h1).resolve_left (fun hcc => h12 hcc)
        rw [List.filter_cons, if_neg (by simp), filter_not_or_right c1 hnd.1]
        have hfl := filter_ne_length hnd.2 h1x
        simp only [List.length_cons]
        omega
      · have h1x : c1 ∈ xs := (List.mem_cons.1 h1).resolve_left (fun hcc => hx1 hcc.symm)
        have h2x : c2 ∈ xs := (List.mem_cons.1 h2).resolve_left (fun hcc => hx2 hcc.symm)
        rw [List.filter_cons, if_pos (by simp [hx1, hx2])]
        have hih := ih hnd.2 h1x h2x
        simp only [List.length_cons]
        omega

theorem updateBatch_batch_nil (s : ClusterState) (c1 c2 : CId) :
    (updateBatch s c1 c2 []).1.currentBatch
      = s.currentBatch.filter (fun x => decide (¬ (x = c1 ∨ x = c2)))
        ++ [CId.merged s.clusterCounter] := rfl

theorem updateBatch_queue_nil (s : ClusterState) (c1 c2 : CId) :
    (updateBatch s c1 c2 []).2 = [] := rfl

theorem updateBatch_batch_cons (s : ClusterState) (c1 c2 : CId) (w : String)
    (rest : List String) :
    (updateBatch s c1 c2 (w :: rest)).1.currentBatch
      = s.currentBatch.filter (fun x => decide (¬ (x = c1 ∨ x = c2)))
        ++ [CId.merged s.clusterCounter, CId.word w] := rfl

theorem updateBatch_queue_cons (s : ClusterState) (c1 c2 : CId) (w : String)
    (rest : List String) :
    (updateBatch s c1 c2 (w :: rest)).2 = rest := rfl

/-- Claim C5: one round of update_batch after a merge shrinks the combined
batch-plus-backlog population by exactly one: the two merged ids leave the
batch, the one new cluster id enters it, and whenever the backlog is
non-empty its head word moves from the backlog into the batch. -/
theorem claim5_population (s : ClusterState) (c1 c2 : CId) (queue : List String)
    (hnd : s.currentBatch.Nodup) (h1 : c1 ∈ s.currentBatch) (h2 : c2 ∈ s.currentBatch)
    (h12 : c1 ≠ c2) :
    (updateBatch s c1 c2 queue).1.currentBatch.length
      + (updateBatch s c1 c2 queue).2.length + 1
      = s.currentBatch.length + queue.length
    ∧ (∀ w rest, queue = w :: rest →
        CId.word w ∈ (updateBatch s c1 c2 queue).1.currentBatch
        ∧ (updateBatch s c1 c2 queue).2 = rest) := by
  have hfl := filter_remove_two_length hnd h1 h2 h12
  cases queue with
  | nil =>
    refine ⟨?_, ?_⟩
    · rw [updateBatch_batch_nil, updateBatch_queue_nil]
      simp only [List.length_append, List.length_cons, List.length_nil]
      omega
    · intro w rest hq
      cases hq
  | cons w rest =>
    refine ⟨?_, ?_⟩
    · rw [updateBatch_batch_cons, updateBatch_queue_cons]
      simp only [List.length_append, List.length_cons, List.length_nil]
      omega
    · intro w2 rest2 hq
      cases hq
      refine ⟨?_, updateBatch_queue_cons s c1 c2 _ _⟩
      rw [updateBatch_batch_cons]
      exact List.mem_append.2 (Or.inr (by simp))

def s5 : ClusterState :=
  { clusterParents := [], clusterCounter := 3,
    index := [], words := ["a", "b"], wordCounts := [],
    clusterBits := [], currentBatch := [CId.word "a", CId.word "b", CId.merged 0],
    currentBatchScores := [] }

/-- Witness for claim C5: a concrete batch of three ids, merging the words a
and b with a one-word backlog. -/
theorem claim5_witness :
    s5.currentBatch.Nodup ∧ CId.word "a" ∈ s5.currentBatch
    ∧ CId.word "b" ∈ s5.currentBatch ∧ CId.word "a" ≠ CId.word "b"
    ∧ ((updateBatch s5 (CId.word "a") (CId.word "b") ["c"]).1.currentBatch.length
        + (updateBatch s5 (CId.word "a") (CId.word "b") ["c"]).2.length + 1
        = s5.currentBatch.length + ["c"].length
      ∧ (∀ w rest, ["c"] = w :: rest →
          CId.word w ∈ (updateBatch s5 (CId.word "a") (CId.word "b") ["c"]).1.currentBatch
          ∧ (updateBatch s5 (CId.word "a") (CId.word "b") ["c"]).2 = rest)) :=
  ⟨by decide, by decide, by decide, by decide,
    claim5_population s5 (CId.word "a") (CId.word "b") ["c"] (by decide) (by decide)
      (by decide) (by decide)⟩

theorem addCounts_getD (m2 : List (Nat × Nat)) :
    ∀ m1 : Dict Nat Nat, Dict.Nodupkeys m2 →
    ∀ d : Nat, Dict.getD (addCounts m1 m2) d 0 = Dict.getD m1 d 0 + Dict.getD m2 d 0 := by
  induction m2 with
  | nil =>
    intro m1 _ d
    simp [addCounts, Dict.getD, Dict.lookup]
  | cons e rest ih =>
    intro m1 hnd d
    have hkeys : Dict.keys (e :: rest) = e.1 :: Dict.keys rest := rfl
    rw [Dict.Nodupkeys, hkeys, List.nodup_cons] at hnd
    simp only [addCounts]
    rw [ih _ hnd.2 d]
    by_cases hd : d = e.1
    · rw [hd]
      rw [Dict.getD_eq_of_lookup _ (Dict.lookup_insert_self m1 e.1 _)]
      rw [Dict.getD_eq_default_of_none _ (Dict.lookup_eq_none_of_not_mem_keys hnd.1)]
      have hce : Dict.getD (e :: rest) e.1 0 = e.2 := by
        unfold Dict.getD
        rw [Dict.lookup_cons, if_pos rfl]
        rfl
      rw [hce]
      omega
    · have ha : Dict.getD (Dict.insert m1 e.1 (Dict.getD m1 e.1 0 + e.2)) d 0
          = Dict.getD m1 d 0 := by
        unfold Dict.getD
        rw [Dict.lookup_insert_ne _ _ _ hd]
      have hb : Dict.getD (e :: rest) d 0 = Dict.getD rest d 0 := by
        unfold Dict.getD
        rw [Dict.lookup_cons, if_neg (fun hh => hd hh.symm)]
      rw [ha, hb]

theorem addCounts_hasKey (m2 : List (Nat × Nat)) :
    ∀ (m1 : Dict Nat Nat) (d : Nat),
    Dict.hasKey (addCounts m1 m2) d = true
      ↔ Dict.hasKey m1 d = true ∨ Dict.hasKey m2 d = true := by
  induction m2 with
  | nil =>
    intro m1 d
    simp [addCounts, Dict.hasKey, Dict.lookup]
  | cons e rest ih =>
    intro m1 d
    simp only [addCounts]
    rw [ih, Dict.hasKey_insert_iff, Dict.hasKey_cons_iff]
    constructor
    · rintro (h | h)
      · cases h with
        | inl h => exact Or.inr (Or.inl h.symm)
        | inr h => exact Or.inl h
      · exact Or.inr (Or.inr h)
    · rintro (h | h)
      · exact Or.inl (Or.inr h)
      · cases h with
        | inl h => exact Or.inl (Or.inl h.symm)
        | inr h => exact Or.inr h

/-- Claim C2: after merge(c1, c2) both children point to the new cluster id
in the parent map; their assigned bits are complementary; the document map
of the new cluster holds, for every document, the sum of the counts of the
two children, over exactly the union of their document sets; and the new
frequency entry equals the sum of the frequencies of the two children. -/
theorem claim2_merge_effects (s : ClusterState) (c1 c2 : CId) (r : Bool)
    (h12 : c1 ≠ c2)
    (h1 : c1 ≠ CId.merged s.clusterCounter) (h2 : c2 ≠ CId.merged s.clusterCounter)
    (hnd2 : Dict.Nodupkeys (Dict.getD s.index c2 [])) :
    Dict.lookup (merge s c1 c2 r).clusterParents c1 = some (CId.merged s.clusterCounter)
    ∧ Dict.lookup (merge s c1 c2 r).clusterParents c2 = some (CId.merged s.clusterCounter)
    ∧ ((Dict.lookup (merge s c1 c2 r).clusterBits c1 = some "0"
          ∧ Dict.lookup (merge s c1 c2 r).clusterBits c2 = some "1")
        ∨ (Dict.lookup (merge s c1 c2 r).clusterBits c1 = some "1"
          ∧ Dict.lookup (merge s c1 c2 r).clusterBits c2 = some "0"))
    ∧ (∀ d : Nat,
        Dict.getD (Dict.getD (merge s c1 c2 r).index (CId.merged s.clusterCounter) []) d 0
          = Dict.getD (Dict.getD s.index c1 []) d 0 + Dict.getD (Dict.getD s.index c2 []) d 0)
    ∧ (∀ d : Nat,
        Dict.hasKey (Dict.getD (merge s c1 c2 r).index (CId.merged s.clusterCounter) []) d = true
          ↔ Dict.hasKey (Dict.getD s.index c1 []) d = true
            ∨ Dict.hasKey (Dict.getD s.index c2 []) d = true)
    ∧ Dict.lookup (merge s c1 c2 r).wordCounts (CId.merged s.clusterCounter)
        = some (Dict.getD s.wordCounts c1 0 + Dict.getD s.wordCounts c2 0) := by
  have hpdef : (merge s c1 c2 r).clusterParents
      = Dict.insert (Dict.insert s.clusterParents c1 (CId.merged s.clusterCounter)) c2
          (CId.merged s.clusterCounter) := rfl
  have hp1 : Dict.lookup (merge s c1 c2 r).clusterParents c1
      = some (CId.merged s.clusterCounter) := by
    rw [hpdef, Dict.lookup_insert_ne _ _ _ h12, Dict.lookup_insert_self]
  have hp2 : Dict.lookup (merge s c1 c2 r).clusterParents c2
      = some (CId.merged s.clusterCounter) := by
    rw [hpdef, Dict.lookup_insert_self]
  have hbdef : (merge s c1 c2 r).clusterBits
      = Dict.insert (Dict.insert s.clusterBits c1 (if r then "1" else "0")) c2
          (if r then "0" else "1") := rfl
  have hb1 : Dict.lookup (merge s c1 c2 r).clusterBits c1 = some (if r then "1" else "0") := by
    rw [hbdef, Dict.lookup_insert_ne _ _ _ h12, Dict.lookup_insert_self]
  have hb2 : Dict.lookup (merge s c1 c2 r).clusterBits c2 = some (if r then "0" else "1") := by
    rw [hbdef, Dict.lookup_insert_self]
  have hidef : (merge s c1 c2 r).index
      = Dict.erase (Dict.erase (Dict.insert s.index (CId.merged s.clusterCounter)
          (addCounts (Dict.getD s.index c1 []) (Dict.getD s.index c2 []))) c1) c2 := rfl
  have hmap : Dict.getD (merge s c1 c2 r).index (CId.merged s.clusterCounter) []
      = addCounts (Dict.getD s.index c1 []) (Dict.getD s.index c2 []) := by
    rw [hidef]
    unfold Dict.getD
    rw [Dict.lookup_erase_ne _ _ (fun hh => h2 hh.symm),
        Dict.lookup_erase_ne _ _ (fun hh => h1 hh.symm),
        Dict.lookup_insert_self]
    rfl
  have hwdef : (merge s c1 c2 r).wordCounts
      = (if inWords s.words c2 = true then
           (if inWords s.words c1 = true then
              Dict.insert s.wordCounts (CId.merged s.clusterCounter)
                (Dict.getD s.wordCounts c1 0 + Dict.getD s.wordCounts c2 0)
            else Dict.erase (Dict.insert s.wordCounts (CId.merged s.clusterCounter)
                (Dict.getD s.wordCounts c1 0 + Dict.getD s.wordCounts c2 0)) c1)
         else Dict.erase
           (if inWords s.words c1 = true then
              Dict.insert s.wordCounts (CId.merged s.clusterCounter)
                (Dict.getD s.wordCounts c1 0 + Dict.getD s.wordCounts c2 0)
            else Dict.erase (Dict.insert s.wordCounts (CId.merged s.clusterCounter)
                (Dict.getD s.wordCounts c1 0 + Dict.getD s.wordCounts c2 0)) c1) c2) := rfl
  have hwc : Dict.lookup (merge s c1 c2 r).wordCounts (CId.merged s.clusterCounter)
      = some (Dict.getD s.wordCounts c1 0 + Dict.getD s.wordCounts c2 0) := by
    rw [hwdef]
    by_cases hic2 : inWords s.words c2 = true
    · rw [if_pos hic2]
      by_cases hic1 : inWords s.words c1 = true
      · rw [if_pos hic1, Dict.lookup_insert_self]
      · rw [if_neg hic1, Dict.lookup_erase_ne _ _ (fun hh => h1 hh.symm),
            Dict.lookup_insert_self]
    · rw [if_neg hic2, Dict.lookup_erase_ne _ _ (fun hh => h2 hh.symm)]
      by_cases hic1 : inWords s.words c1 = true
      · rw [if_pos hic1, Dict.lookup_insert_self]
      · rw [if_neg hic1, Dict.lookup_erase_ne _ _ (fun hh => h1 hh.symm),
            Dict.lookup_insert_self]
  refine ⟨hp1, hp2, ?_, ?_, ?_, hwc⟩
  · cases r
    · exact Or.inl ⟨hb1, hb2⟩
    · exact Or.inr ⟨hb1, hb2⟩
  · intro d
    rw [hmap]
    exact addCounts_getD (Dict.getD s.index c2 []) (Dict.getD s.index c1 []) hnd2 d
  · intro d
    rw [hmap]
    exact addCounts_hasKey (Dict.getD s.index c2 []) (Dict.getD s.index c1 []) d

def s2 : ClusterState :=
  { clusterParents := [], clusterCounter := 5,
    index := [(CId.word "a", [(0, 2), (1, 1)]), (CId.word "b", [(1, 3)])],
    words := ["a", "b"], wordCounts := [(CId.word "a", 3), (CId.word "b", 3)],
    clusterBits := [], currentBatch := [CId.word "a", CId.word "b"],
    currentBatchScores := [] }

/-- Witness for claim C2: merging the two words of a concrete state. -/
theorem claim2_witness :
    CId.word "a" ≠ CId.word "b"
    ∧ CId.word "a" ≠ CId.merged s2.clusterCounter
    ∧ CId.word "b" ≠ CId.merged s2.clusterCounter
    ∧ Dict.Nodupkeys (Dict.getD s2.index (CId.word "b") [])
    ∧ (Dict.lookup (merge s2 (CId.word "a") (CId.word "b") true).clusterParents (CId.word "a")
        = some (CId.merged s2.clusterCounter)
      ∧ Dict.lookup (merge s2 (CId.word "a") (CId.word "b") true).clusterParents (CId.word "b")
        = some (CId.merged s2.clusterCounter)
      ∧ ((Dict.lookup (merge s2 (CId.word "a") (CId.word "b") true).clusterBits (CId.word "a") = some "0"
            ∧ Dict.lookup (merge s2 (CId.word "a") (CId.word "b") true).clusterBits (CId.word "b") = some "1")
          ∨ (Dict.lookup (merge s2 (CId.word "a") (CId.word "b") true).clusterBits (CId.word "a") = some "1"
            ∧ Dict.lookup (merge s2 (CId.word "a") (CId.word "b") true).clusterBits (CId.word "b") = some "0"))
      ∧ (∀ d : Nat,
          Dict.getD (Dict.getD (merge s2 (CId.word "a") (CId.word "b") true).index
              (CId.merged s2.clusterCounter) []) d 0
            = Dict.getD (Dict.getD s2.index (CId.word "a") []) d 0
              + Dict.getD (Dict.getD s2.index (CId.word "b") []) d 0)
      ∧ (∀ d : Nat,
          Dict.hasKey (Dict.getD (merge s2 (CId.word "a") (CId.word "b") true).index
              (CId.merged s2.clusterCounter) []) d = true
            ↔ Dict.hasKey (Dict.getD s2.index (CId.word "a") []) d = true
              ∨ Dict.hasKey (Dict.getD s2.index (CId.word "b") []) d = true)
      ∧ Dict.lookup (merge s2 (CId.word "a") (CId.word "b") true).wordCounts
          (CId.merged s2.clusterCounter)
        = some (Dict.getD s2.wordCounts (CId.word "a") 0
            + Dict.getD s2.wordCounts (CId.word "b") 0)) :=
  ⟨by decide, by decide, by decide, by decide,
    claim2_merge_effects s2 (CId.word "a") (CId.word "b") true (by decide) (by decide)
      (by decide) (by decide)⟩

theorem foldl_add_map {β : Type} (g : β → Nat) (l : List β) :
    ∀ n : Nat, l.foldl (fun acc x => acc + g x) n = n + (l.map g).sum := by
  induction l with
  | nil => intro n; simp
  | cons x xs ih =>
    intro n
    rw [List.foldl_cons, ih, List.map_cons, List.sum_cons]
    omega

theorem sum_toFinset_of_nodup {β : Type} [DecidableEq β] (g : β → Nat) :
    ∀ l : List β, l.Nodup → ∑ d ∈ l.toFinset, g d = (l.map g).sum := by
  intro l
  induction l with
  | nil => intro _; simp
  | cons x xs ih =>
    intro hnd
    rw [List.nodup_cons] at hnd
    rw [List.toFinset_cons,
        Finset.sum_insert (by simp only [List.mem_toFinset]; exact hnd.1),
        List.map_cons, List.sum_cons, ih hnd.2]

theorem filter_hasKey_toFinset (m1 m2 : Dict Nat Nat) :
    ((Dict.keys m1).filter (fun d => Dict.hasKey m2 d)).toFinset
      = (Dict.keys m1).toFinset ∩ (Dict.keys m2).toFinset := by
  ext d
  simp only [List.mem_toFinset, List.mem_filter, Finset.mem_inter]
  constructor
  · rintro ⟨hm, hk⟩
    exact ⟨hm, (Dict.hasKey_true_iff m2 d).1 hk⟩
  · rintro ⟨hm, hk⟩
    exact ⟨hm, (Dict.hasKey_true_iff m2 d).2 hk⟩

/-- Co-occurrence count exactly as the specification words it: the sum, over
the documents present in both maps, of the product of the two counts. -/
def specCooc (m1 m2 : Dict Nat Nat) : Nat :=
  ∑ d ∈ (Dict.keys m1).toFinset ∩ (Dict.keys m2).toFinset,
    Dict.getD m1 d 0 * Dict.getD m2 d 0

/-- Pair score formula of the specification: ln of the co-occurrence sum
minus ln of each frequency, and negative infinity when the sum is zero. -/
noncomputable def specPairScore (m1 m2 : Dict Nat Nat) (f1 f2 : Nat) : EReal :=
  if specCooc m1 m2 = 0 then ⊥
  else ((Real.log (specCooc m1 m2) - Real.log f1 - Real.log f2 : Real) : EReal)

theorem pairCount_eq_spec (m1 m2 : Dict Nat Nat) (hnd : Dict.Nodupkeys m1) :
    pairCount m1 m2 = specCooc m1 m2 := by
  have hnd2 : (Dict.keys m1).Nodup := hnd
  unfold pairCount specCooc
  rw [foldl_add_map, Nat.zero_add, ← filter_hasKey_toFinset m1 m2,
      sum_toFinset_of_nodup _ _ (List.Nodup.filter _ hnd2)]

/-- Claim C1: for cluster ids present in the index and the frequency table,
make_pair_scores stores for the pair (c1, c2) a score whose real value is
ln of the sum over shared documents of count1 times count2, minus ln of
freq(c1) and ln of freq(c2); when the two maps share no document the stored
score is negative infinity, and nothing fails (the embedded scorer is a
total function). -/
theorem claim1_pair_score (index : Dict CId (Dict Nat Nat)) (wc : Dict CId Nat)
    (tbl : Dict CId (Dict CId SVal)) (c1 c2 : CId)
    (_hi1 : Dict.hasKey index c1 = true) (_hi2 : Dict.hasKey index c2 = true)
    (_hw1 : Dict.hasKey wc c1 = true) (_hw2 : Dict.hasKey wc c2 = true)
    (hnd : Dict.Nodupkeys (Dict.getD index c1 [])) :
    Dict.lookup (Dict.getD (makePairScores index wc [(c1, c2)] tbl) c1 []) c2
      = some (pairScoreVal index wc c1 c2)
    ∧ svalInterp (pairScoreVal index wc c1 c2)
      = specPairScore (Dict.getD index c1 []) (Dict.getD index c2 [])
          (Dict.getD wc c1 0) (Dict.getD wc c2 0)
    ∧ ((Dict.keys (Dict.getD index c1 [])).toFinset
          ∩ (Dict.keys (Dict.getD index c2 [])).toFinset = ∅
        → pairScoreVal index wc c1 c2 = SVal.neginf) := by
  have hpc := pairCount_eq_spec (Dict.getD index c1 []) (Dict.getD index c2 []) hnd
  have hps : pairScoreVal index wc c1 c2
      = (if pairCount (Dict.getD index c1 []) (Dict.getD index c2 []) = 0 then SVal.neginf
         else SVal.finiteScore (pairCount (Dict.getD index c1 []) (Dict.getD index c2 []))
           (Dict.getD wc c1 0) (Dict.getD wc c2 0)) := rfl
  refine ⟨makePairScores_single index wc tbl c1 c2, ?_, ?_⟩
  · rw [hps, hpc]
    unfold specPairScore
    by_cases h0 : specCooc (Dict.getD index c1 []) (Dict.getD index c2 []) = 0
    · rw [if_pos h0, if_pos h0]
      rfl
    · rw [if_neg h0, if_neg h0]
      rfl
  · intro hempty
    have h0 : specCooc (Dict.getD index c1 []) (Dict.getD index c2 []) = 0 := by
      unfold specCooc
      rw [hempty]
      simp
    rw [hps, hpc, if_pos h0]

def idx1 : Dict CId (Dict Nat Nat) :=
  [(CId.word "a", [(0, 2)]), (CId.word "b", [(0, 3)])]

def wc1 : Dict CId Nat := [(CId.word "a", 2), (CId.word "b", 3)]

/-- Witness for claim C1 at a concrete two-word index. -/
theorem claim1_witness :
    Dict.hasKey idx1 (CId.word "a") = true ∧ Dict.hasKey idx1 (CId.word "b") = true
    ∧ Dict.hasKey wc1 (CId.word "a") = true ∧ Dict.hasKey wc1 (CId.word "b") = true
    ∧ Dict.Nodupkeys (Dict.getD idx1 (CId.word "a") [])
    ∧ (Dict.lookup (Dict.getD (makePairScores idx1 wc1 [(CId.word "a", CId.word "b")] [])
          (CId.word "a") []) (CId.word "b")
        = some (pairScoreVal idx1 wc1 (CId.word "a") (CId.word "b"))
      ∧ svalInterp (pairScoreVal idx1 wc1 (CId.word "a") (CId.word "b"))
        = specPairScore (Dict.getD idx1 (CId.word "a") []) (Dict.getD idx1 (CId.word "b") [])
            (Dict.getD wc1 (CId.word "a") 0) (Dict.getD wc1 (CId.word "b") 0)
      ∧ ((Dict.keys (Dict.getD idx1 (CId.word "a") [])).toFinset
            ∩ (Dict.keys (Dict.getD idx1 (CId.word "b") [])).toFinset = ∅
          → pairScoreVal idx1 wc1 (CId.word "a") (CId.word "b") = SVal.neginf)) :=
  ⟨by decide, by decide, by decide, by decide, by decide,
    claim1_pair_score idx1 wc1 [] (CId.word "a") (CId.word "b") (by decide) (by decide)
      (by decide) (by decide) (by decide)⟩

theorem le_foldl_max_init (l : List Nat) : ∀ a : Nat, a ≤ l.foldl max a := by
  induction l with
  | nil => intro a; exact le_refl a
  | cons x xs ih =>
    intro a
    rw [List.foldl_cons]
    exact le_trans (le_max_left a x) (ih (max a x))

theorem le_foldl_max_mem (l : List Nat) : ∀ (a x : Nat), x ∈ l → x ≤ l.foldl max a := by
  induction l with
  | nil => intro a x hx; cases hx
  | cons y ys ih =>
    intro a x hx
    rw [List.foldl_cons]
    cases List.mem_cons.1 hx with
    | inl h =>
      exact le_trans (by rw [h]; exact le_max_right a y) (le_foldl_max_init ys (max a y))
    | inr h => exact ih (max a y) x h

theorem rank_parent_le {parents : Dict CId CId} {c p : CId}
    (h : Dict.lookup parents c = some p) : rank p ≤ parentBound parents := by
  unfold parentBound
  exact le_foldl_max_mem _ 0 _ (List.mem_map.2 ⟨(c, p), Dict.lookup_mem h, rfl⟩)

theorem lookup_none_of_rank_gt {parents : Dict CId CId}
    (hinc : ∀ e ∈ parents, rank e.1 < rank e.2) {c : CId}
    (hc : parentBound parents + 1 ≤ rank c) :
    Dict.lookup parents c = none := by
  cases hl : Dict.lookup parents c with
  | none => rfl
  | some p =>
    have h1 : rank c < rank p := hinc (c, p) (Dict.lookup_mem hl)
    have h2 := rank_parent_le hl
    omega

theorem getBitstringAux_succ (parents : Dict CId CId) (bits : Dict CId String)
    (fuel : Nat) (c : CId) :
    getBitstringAux parents bits (fuel + 1) c
      = match Dict.lookup parents c with
        | none => ""
        | some p => getBitstringAux parents bits fuel p ++ Dict.getD bits c "" := rfl

theorem getBitstringAux_fuel (parents : Dict CId CId) (bits : Dict CId String)
    (hinc : ∀ e ∈ parents, rank e.1 < rank e.2) :
    ∀ (m : Nat) (c : CId) (n : Nat),
      parentBound parents + 1 ≤ m + rank c → parentBound parents + 1 ≤ n + rank c →
      getBitstringAux parents bits m c = getBitstringAux parents bits n c := by
  intro m
  induction m with
  | zero =>
    intro c n hm hn
    have hnone := lookup_none_of_rank_gt hinc (show parentBound parents + 1 ≤ rank c by omega)
    cases n with
    | zero => rfl
    | succ n => simp [getBitstringAux, hnone]
  | succ m ih =>
    intro c n hm hn
    cases n with
    | zero =>
      have hnone := lookup_none_of_rank_gt hinc (show parentBound parents + 1 ≤ rank c by omega)
      simp [getBitstringAux, hnone]
    | succ n =>
      cases hl : Dict.lookup parents c with
      | none => simp [getBitstringAux, hl]
      | some p =>
        have hcp : rank c < rank p := hinc (c, p) (Dict.lookup_mem hl)
        have hpb := rank_parent_le hl
        have heq := ih p n (by omega) (by omega)
        simp [getBitstringAux, hl, heq]

theorem getBitstringAux_length (parents : Dict CId CId) (bits : Dict CId String)
    (hbits : ∀ e ∈ parents, (Dict.lookup bits e.1).map String.length = some 1) :
    ∀ (m : Nat) (c : CId),
      (getBitstringAux parents bits m c).length = pathLenAux parents m c := by
  intro m
  induction m with
  | zero => intro c; rfl
  | succ m ih =>
    intro c
    cases hl : Dict.lookup parents c with
    | none => simp [getBitstringAux, pathLenAux, hl]
    | some p =>
      have hb := hbits (c, p) (Dict.lookup_mem hl)
      cases hbb : Dict.lookup bits c with
      | none => rw [hbb] at hb; simp at hb
      | some b =>
        rw [hbb] at hb
        simp at hb
        simp [getBitstringAux, pathLenAux, hl, Dict.getD, hbb, ih, hb]

/-- Claim C4: under the rank-increasing parent map built by merge (each
child id sits strictly below its parent id), the parent walk of
get_bitstring terminates: any fuel past parentBound + 1 computes the same
answer, which the embedding makes a pure function of the two maps; the
resulting bitstring has length equal to the number of merges on the path
from the id to its root; and an id that was never merged gets the empty
string. -/
theorem claim4_bitstring (parents : Dict CId CId) (bits : Dict CId String) (c : CId)
    (hinc : ∀ e ∈ parents, rank e.1 < rank e.2)
    (hbits : ∀ e ∈ parents, (Dict.lookup bits e.1).map String.length = some 1) :
    (∀ m : Nat, parentBound parents + 1 ≤ m →
      getBitstringAux parents bits m c = getBitstring parents bits c)
    ∧ (getBitstring parents bits c).length = pathLen parents c
    ∧ (Dict.lookup parents c = none → getBitstring parents bits c = "") := by
  refine ⟨?_, ?_, ?_⟩
  · intro m hm
    exact getBitstringAux_fuel parents bits hinc m c (parentBound parents + 1)
      (by omega) (by omega)
  · exact getBitstringAux_length parents bits hbits _ c
  · intro h
    unfold getBitstring
    rw [getBitstringAux_succ, h]

def parents4 : Dict CId CId :=
  [(CId.word "a", CId.merged 0), (CId.merged 0, CId.merged 1)]

def bits4 : Dict CId String := [(CId.word "a", "0"), (CId.merged 0, "1")]

/-- Witness for claim C4 on a concrete two-merge hierarchy. -/
theorem claim4_witness :
    (∀ e ∈ parents4, rank e.1 < rank e.2)
    ∧ (∀ e ∈ parents4, (Dict.lookup bits4 e.1).map String.length = some 1)
    ∧ ((∀ m : Nat, parentBound parents4 + 1 ≤ m →
          getBitstringAux parents4 bits4 m (CId.word "a")
            = getBitstring parents4 bits4 (CId.word "a"))
      ∧ (getBitstring parents4 bits4 (CId.word "a")).length = pathLen parents4 (CId.word "a")
      ∧ (Dict.lookup parents4 (CId.word "a") = none
          → getBitstring parents4 bits4 (CId.word "a") = "")) :=
  ⟨by decide, by decide,
    claim4_bitstring parents4 bits4 (CId.word "a") (by decide) (by decide)⟩

theorem indexToken_wordCount (st : IndexState) (d : Nat) (t w : String) :
    Dict.getD (indexToken st d t).wordCounts (CId.word w) 0
      = Dict.getD st.wordCounts (CId.word w) 0 + (if t = w then 1 else 0) := by
  have hdef : (indexToken st d t).wordCounts
      = Dict.insert st.wordCounts (CId.word t)
          (Dict.getD st.wordCounts (CId.word t) 0 + 1) := rfl
  rw [hdef]
  by_cases ht : t = w
  · rw [ht, Dict.getD_eq_of_lookup _ (Dict.lookup_insert_self _ _ _), if_pos rfl]
  · have hne : CId.word w ≠ CId.word t := by
      intro hh
      injection hh with hh2
      exact ht hh2.symm
    rw [if_neg ht]
    unfold Dict.getD
    rw [Dict.lookup_insert_ne _ _ _ hne]
    omega

theorem indexDoc_wordCount (doc : List String) :
    ∀ (st : IndexState) (d : Nat) (w : String),
    Dict.getD (indexDoc st d doc).wordCounts (CId.word w) 0
      = Dict.getD st.wordCounts (CId.word w) 0 + occInDoc w doc := by
  induction doc with
  | nil => intro st d w; simp [indexDoc, occInDoc]
  | cons t ts ih =>
    intro st d w
    have hstep : indexDoc st d (t :: ts) = indexDoc (indexToken st d t) d ts := rfl
    rw [hstep, ih, indexToken_wordCount]
    have hocc : occInDoc w (t :: ts) = (if t = w then 1 else 0) + occInDoc w ts := rfl
    rw [hocc]
    omega

theorem indexDocs_wordCount (docs : List (List String)) :
    ∀ (k : Nat) (st : IndexState) (w : String),
    Dict.getD (indexDocs docs k st).wordCounts (CId.word w) 0
      = Dict.getD st.wordCounts (CId.word w) 0 + occCount docs w := by
  induction docs with
  | nil => intro k st w; simp [indexDocs, occCount]
  | cons doc rest ih =>
    intro k st w
    have hstep : indexDocs (doc :: rest) k st = indexDocs rest (k + 1) (indexDoc st k doc) := rfl
    rw [hstep, ih, indexDoc_wordCount]
    have hocc : occCount (doc :: rest) w = occInDoc w doc + occCount rest w := by
      simp [occCount]
    rw [hocc]
    omega

theorem createIndex_wordCount {docs : List (List String)} {st : IndexState} {nd : Nat}
    (h : createIndex docs = Except.ok (st, nd)) (w : String) :
    Dict.getD st.wordCounts (CId.word w) 0 = occCount docs w := by
  cases docs with
  | nil => cases h
  | cons doc rest =>
    have hrfl : createIndex (doc :: rest)
        = Except.ok (indexDocs (doc :: rest) 0 ⟨[], []⟩, ((doc :: rest).length - 1) + 1) := rfl
    rw [hrfl] at h
    cases h
    rw [indexDocs_wordCount]
    simp [Dict.getD, Dict.lookup]

theorem pruneDict_lookup {vv : Type} (retained : List String) {w : String}
    (hw : w ∈ retained) (ks : List CId) :
    ∀ d : Dict CId vv,
    Dict.lookup (pruneDict retained ks d) (CId.word w) = Dict.lookup d (CId.word w) := by
  induction ks with
  | nil => intro d; rfl
  | cons k ks ih =>
    intro d
    have hstep : pruneDict retained (k :: ks) d
        = pruneDict retained ks
            (if keyRetained retained k = true then d else Dict.erase d k) := rfl
    rw [hstep, ih]
    by_cases hk : keyRetained retained k = true
    · rw [if_pos hk]
    · rw [if_neg hk]
      apply Dict.lookup_erase_ne
      intro heq
      apply hk
      rw [← heq]
      simp only [keyRetained, decide_eq_true_eq]
      exact hw

theorem createVocab_wordCount {index : Dict CId (Dict Nat Nat)} {wc : Dict CId Nat}
    {cap : Option Nat} {v : VocabResult}
    (h : createVocab index wc cap = Except.ok v) {w : String} (hw : w ∈ v.words) :
    Dict.lookup v.wordCounts (CId.word w) = Dict.lookup wc (CId.word w) := by
  cases cap with
  | none =>
    have hrfl : createVocab index wc none
        = Except.ok ⟨sortWordsDesc wc (wordKeys wc), index, wc⟩ := rfl
    rw [hrfl] at h
    cases h
    rfl
  | some cap =>
    by_cases hlen : (sortWordsDesc wc (wordKeys wc)).length > cap
    · cases hget : (sortWordsDesc wc (wordKeys wc)).get? (cap + 1) with
      | none =>
        simp only [createVocab, hget] at h
        rw [if_pos hlen] at h
        cases h
      | some boundary =>
        simp only [createVocab, hget] at h
        rw [if_pos hlen] at h
        cases h
        exact pruneDict_lookup _ hw _ _
    · simp only [createVocab] at h
      rw [if_neg hlen] at h
      cases h
      rfl

theorem merge_wordCount_frame (s : ClusterState) (c1 c2 : CId) (r : Bool)
    {w : String} (hw : w ∈ s.words) :
    Dict.lookup (merge s c1 c2 r).wordCounts (CId.word w)
      = Dict.lookup s.wordCounts (CId.word w) := by
  have hwdef : (merge s c1 c2 r).wordCounts
      = (if inWords s.words c2 = true then
           (if inWords s.words c1 = true then
              Dict.insert s.wordCounts (CId.merged s.clusterCounter)
                (Dict.getD s.wordCounts c1 0 + Dict.getD s.wordCounts c2 0)
            else Dict.erase (Dict.insert s.wordCounts (CId.merged s.clusterCounter)
                (Dict.getD s.wordCounts c1 0 + Dict.getD s.wordCounts c2 0)) c1)
         else Dict.erase
           (if inWords s.words c1 = true then
              Dict.insert s.wordCounts (CId.merged s.clusterCounter)
                (Dict.getD s.wordCounts c1 0 + Dict.getD s.wordCounts c2 0)
            else Dict.erase (Dict.insert s.wordCounts (CId.merged s.clusterCounter)
                (Dict.getD s.wordCounts c1 0 + Dict.getD s.wordCounts c2 0)) c1) c2) := rfl
  have hne : ∀ c : CId, inWords s.words c = false → CId.word w ≠ c := by
    intro c hc heq
    rw [← heq] at hc
    simp only [inWords, decide_eq_false_iff_not] at hc
    exact hc hw
  have hmw : CId.word w ≠ CId.merged s.clusterCounter := fun h => by cases h
  rw [hwdef]
  by_cases hic2 : inWords s.words c2 = true
  · rw [if_pos hic2]
    by_cases hic1 : inWords s.words c1 = true
    · rw [if_pos hic1, Dict.lookup_insert_ne _ _ _ hmw]
    · rw [if_neg hic1,
          Dict.lookup_erase_ne _ _ (hne c1 (Bool.eq_false_iff.2 hic1)),
          Dict.lookup_insert_ne _ _ _ hmw]
  · rw [if_neg hic2, Dict.lookup_erase_ne _ _ (hne c2 (Bool.eq_false_iff.2 hic2))]
    by_cases hic1 : inWords s.words c1 = true
    · rw [if_pos hic1, Dict.lookup_insert_ne _ _ _ hmw]
    · rw [if_neg hic1,
          Dict.lookup_erase_ne _ _ (hne c1 (Bool.eq_false_iff.2 hic1)),
          Dict.lookup_insert_ne _ _ _ hmw]

theorem mergeStep_words (sq : ClusterState × List String) (c1 c2 : CId) (r : Bool) :
    (mergeStep sq c1 c2 r).1.words = sq.1.words := rfl

theorem mergeStep_wordCount (sq : ClusterState × List String) (c1 c2 : CId) (r : Bool)
    {w : String} (hw : w ∈ sq.1.words) :
    Dict.lookup (mergeStep sq c1 c2 r).1.wordCounts (CId.word w)
      = Dict.lookup sq.1.wordCounts (CId.word w) := by
  have hdef : (mergeStep sq c1 c2 r).1.wordCounts = (merge sq.1 c1 c2 r).wordCounts := rfl
  rw [hdef]
  exact merge_wordCount_frame sq.1 c1 c2 r hw

theorem applyMerges_words (ops : List (CId × CId × Bool)) :
    ∀ (s : ClusterState) (q : List String),
    (applyMerges (s, q) ops).1.words = s.words := by
  induction ops with
  | nil => intro s q; rfl
  | cons op rest ih =>
    intro s q
    have hstep : applyMerges (s, q) (op :: rest)
        = applyMerges (mergeStep (s, q) op.1 op.2.1 op.2.2) rest := rfl
    rw [hstep]
    have hmk : mergeStep (s, q) op.1 op.2.1 op.2.2
        = ((mergeStep (s, q) op.1 op.2.1 op.2.2).1, (mergeStep (s, q) op.1 op.2.1 op.2.2).2) := rfl
    rw [hmk, ih, mergeStep_words]

theorem applyMerges_wordCount (ops : List (CId × CId × Bool)) :
    ∀ (s : ClusterState) (q : List String) {w : String}, w ∈ s.words →
    Dict.lookup (applyMerges (s, q) ops).1.wordCounts (CId.word w)
      = Dict.lookup s.wordCounts (CId.word w) := by
  induction ops with
  | nil => intro s q w hw; rfl
  | cons op rest ih =>
    intro s q w hw
    have hstep : applyMerges (s, q) (op :: rest)
        = applyMerges (mergeStep (s, q) op.1 op.2.1 op.2.2) rest := rfl
    have hmk : mergeStep (s, q) op.1 op.2.1 op.2.2
        = ((mergeStep (s, q) op.1 op.2.1 op.2.2).1, (mergeStep (s, q) op.1 op.2.1 op.2.2).2) := rfl
    have hw2 : w ∈ (mergeStep (s, q) op.1 op.2.1 op.2.2).1.words := by
      rw [mergeStep_words]
      exact hw
    rw [hstep, hmk, ih _ _ hw2, mergeStep_wordCount (s, q) _ _ _ hw]

theorem applyMerges_getD (ops : List (CId × CId × Bool)) (s : ClusterState)
    (q : List String) {w : String} (hw : w ∈ s.words) :
    Dict.getD (applyMerges (s, q) ops).1.wordCounts (CId.word w) 0
      = Dict.getD s.wordCounts (CId.word w) 0 := by
  unfold Dict.getD
  rw [applyMerges_wordCount ops s q hw]

theorem saveClusters_mem (s : ClusterState) {w : String} (hmem : w ∈ s.words) :
    (w, getBitstring s.clusterParents s.clusterBits (CId.word w),
      Dict.getD s.wordCounts (CId.word w) 0) ∈ saveClusters s := by
  unfold saveClusters
  exact List.mem_map.2 ⟨w, hmem, rfl⟩

/-- Claim C3: the frequency value written to the output line of a retained
word equals the total number of occurrences of the word in the original
corpus, and no sequence of merge rounds changes that value: merge deletes
frequency entries only for ids absent from the retained word list, and its
only insertion is at the fresh merged id. -/
theorem claim3_output_frequency (corpus : List (List String)) (cap : Option Nat)
    (batchSize : Nat) (ops : List (CId × CId × Bool)) (w : String)
    (s0 : ClusterState) (q0 : List String)
    (hinit : initialState corpus cap batchSize = Except.ok (s0, q0))
    (hw : w ∈ s0.words) :
    Dict.getD (applyMerges (s0, q0) ops).1.wordCounts (CId.word w) 0 = occCount corpus w
    ∧ (w, getBitstring (applyMerges (s0, q0) ops).1.clusterParents
          (applyMerges (s0, q0) ops).1.clusterBits (CId.word w),
        occCount corpus w) ∈ saveClusters (applyMerges (s0, q0) ops).1 := by
  unfold initialState at hinit
  cases hci : createIndex corpus with
  | error e => rw [hci] at hinit; cases hinit
  | ok r =>
    obtain ⟨ist, nd⟩ := r
    simp only [hci] at hinit
    cases hcv : createVocab ist.index ist.wordCounts cap with
    | error e =>
      simp only [hcv] at hinit
      exact Except.noConfusion hinit
    | ok v =>
      simp only [hcv] at hinit
      cases hinit
      have hw2 : w ∈ v.words := hw
      have hoc := createIndex_wordCount hci w
      have hvc := createVocab_wordCount hcv hw2
      have h3 : Dict.getD v.wordCounts (CId.word w) 0 = occCount corpus w := by
        unfold Dict.getD
        rw [hvc]
        exact hoc
      have hfin := (applyMerges_getD ops _ (v.words.drop (batchSize + 1)) hw).trans h3
      refine ⟨hfin, ?_⟩
      rw [← hfin]
      apply saveClusters_mem
      rw [applyMerges_words ops]
      exact hw

def corpus3 : List (List String) := [["a", "b"], ["a"]]

def ops3 : List (CId × CId × Bool) := [(CId.word "a", CId.word "b", true)]

def sq3 : ClusterState × List String :=
  match initialState corpus3 none 2 with
  | Except.ok sq => sq
  | Except.error _ =>
    ({ clusterParents := [], clusterCounter := 0, index := [], words := [],
       wordCounts := [], clusterBits := [], currentBatch := [],
       currentBatchScores := [] }, [])

/-- Witness for claim C3 on a concrete two-document corpus and one merge. -/
theorem claim3_witness :
    initialState corpus3 none 2 = Except.ok (sq3.1, sq3.2)
    ∧ "a" ∈ sq3.1.words
    ∧ (Dict.getD (applyMerges (sq3.1, sq3.2) ops3).1.wordCounts (CId.word "a") 0
        = occCount corpus3 "a"
      ∧ ("a", getBitstring (applyMerges (sq3.1, sq3.2) ops3).1.clusterParents
            (applyMerges (sq3.1, sq3.2) ops3).1.clusterBits (CId.word "a"),
          occCount corpus3 "a") ∈ saveClusters (applyMerges (sq3.1, sq3.2) ops3).1) :=
  ⟨rfl, by decide,
    claim3_output_frequency corpus3 none 2 ops3 "a" sq3.1 sq3.2 rfl (by decide)⟩
